import Mathlib

/-!
Verification development for the tfjs NLP layers core: einsum-driven dense
projection sizing, multi-head attention (masking, scores, shapes), the
transformer decoder block (causal self-attention, key/value cache protocol,
cross-attention usage state, mask propagation, serialization), and the
`sliceUpdate` tensor utility.

The repository snapshot contains the GPT-2 backbone, the `sliceUpdate`
utility and the unit tests of the other layers; the layer implementations
themselves (einsum_dense.ts, multihead_attention.ts, transformer_decoder.ts,
cached_multihead_attention.ts) are not part of the snapshot, so those parts
are modelled from the specification, as flagged in each doc comment.

Numeric modelling: tensor entries are rationals. The tensor engine is an
external collaborator (spec section 1 and section 6), so its transcendental
scalar primitives are abstracted: the exponential inside softmax, the
reciprocal square root inside layer normalization, the activation function
and the 1/sqrt(keyDim) score scale enter the model as parameters. The
minus-infinity-equivalent additive mask bias before softmax is modelled by
its idealized semantics: a masked-out position contributes weight exactly 0
and is excluded from the softmax normalization.
-/

namespace TfjsNlp

/-- Modelled from the spec: splitting an einsum equation around the literal
token `->` (first occurrence), spec section 4.1. Returns the part before and
the part after, or nothing when the separator is missing. -/
def splitArrow : List Char → Option (List Char × List Char)
  | [] => none
  | '-' :: '>' :: rest => some ([], rest)
  | c :: rest => (splitArrow rest).map (fun p => (c :: p.1, p.2))

/-- Modelled from the spec: splitting the left part of an einsum equation
around the literal token `,` (first occurrence), spec section 4.1. -/
def splitComma : List Char → Option (List Char × List Char)
  | [] => none
  | ',' :: rest => some ([], rest)
  | c :: rest => (splitComma rest).map (fun p => (c :: p.1, p.2))

/-- An axis size: a concrete positive size or the unknown/batch sentinel
(the analogue of `null` in a tfjs `Shape`). -/
abbrev Dim := Option Nat

/-- Modelled from the spec: the letter-to-size mapping built by walking the
equation specs against the known shapes (spec section 4.1); an association
list from axis letters to possibly-unknown sizes. -/
def letterMap (spec : List Char) (shape : List Dim) : List (Char × Dim) :=
  spec.zip shape

/-- Modelled from the spec: resolving one axis letter to a concrete size
from the mapping; an unknown or absent size means the letter is unresolved
(spec section 4.1). -/
def resolveLetter (m : List (Char × Dim)) (c : Char) : Option Nat :=
  match m.lookup c with
  | some (some n) => some n
  | _ => none

/-- Modelled from the spec: resolving a list of letters in order; fails when
any single letter is unresolved. -/
def resolveLetters (m : List (Char × Dim)) : List Char → Option (List Nat)
  | [] => some []
  | c :: cs => do
      let n ← resolveLetter m c
      let ns ← resolveLetters m cs
      pure (n :: ns)

/-- Modelled from the spec: `analyzeEinsumString` of the missing
einsum_dense.ts. Splits `equation` into lhs, rhs, out around `,` and `->`
(ConfigurationError, here the error branch, when a separator is missing);
builds the letter-to-size map by walking lhs against `inputShape` and out
against `outputShape` with the input batch dimension re-prepended; resolves
the weight shape as the rhs letters in rhs order (error when a letter is
unresolved); resolves the bias shape from `biasAxes` against out order with
1 as the broadcastable placeholder, or no bias when `biasAxes` is absent or
empty; and returns the full output shape with the batch dimension
re-prepended, preserved even when unknown (spec section 4.1). -/
def analyzeEinsumString (equation : String) (biasAxes : Option String)
    (inputShape : List Dim) (outputShape : List Dim) :
    Except String (List Nat × Option (List Nat) × List Dim) := do
  let some (left, outSpec) := splitArrow equation.toList
    | .error "ConfigurationError: equation is missing the -> separator"
  let some (lhs, rhs) := splitComma left
    | .error "ConfigurationError: equation is missing the , separator"
  let fullOutputShape : List Dim := (inputShape.headD none) :: outputShape
  if lhs.length ≠ inputShape.length then
    .error "ConfigurationError: input shape rank does not match the equation"
  else if outSpec.length ≠ fullOutputShape.length then
    .error "ConfigurationError: output shape rank does not match the equation"
  else
    let m := letterMap lhs inputShape ++ letterMap outSpec fullOutputShape
    let some weightShape := resolveLetters m rhs
      | .error "ConfigurationError: unresolved axis letter in the equation"
    let biasLetters := (biasAxes.getD "").toList
    if biasLetters.isEmpty then
      pure (weightShape, none, fullOutputShape)
    else
      let some biasShape := (outSpec.drop 1).mapM (fun c =>
          if biasLetters.contains c then resolveLetter m c else some 1)
        | .error "ConfigurationError: unresolved bias axis letter"
      pure (weightShape, some biasShape, fullOutputShape)

end TfjsNlp

namespace TfjsNlp

/-- Modelled from the spec: the constructor arguments of the missing
multihead_attention.ts that determine shape contracts — `numHeads`,
`keyDim`, optional `valueDim` defaulting to `keyDim`, optional output
feature shape defaulting to the query trailing feature dimension
(spec section 4.3). -/
structure MHAShapeArgs where
  numHeads : Nat
  keyDim : Nat
  valueDim : Option Nat := none
  outputFeatures : Option (List Nat) := none

/-- Modelled from the spec: the output shape of a MultiHeadAttention call
from the missing multihead_attention.ts — the query shape with the trailing
feature dimensions replaced by the configured output feature shape, or the
query shape itself when no output shape was configured (spec section 4.3). -/
def mhaOutputShape (a : MHAShapeArgs) (queryShape : List Dim) : List Dim :=
  match a.outputFeatures with
  | none => queryShape
  | some os => queryShape.dropLast ++ os.map some

/-- Modelled from the spec: the shape of the post-softmax attention score
tensor of the missing multihead_attention.ts — batch, then heads, then the
query-side attention axes, then the key-side attention axes; with default
attention axes these are the single sequence axes of query and value, i.e.
everything between the batch axis and the trailing feature axis
(spec sections 4.3 and 8.8). -/
def mhaScoresShape (a : MHAShapeArgs) (queryShape valueShape : List Dim) :
    List Dim :=
  queryShape.headD none :: some a.numHeads ::
    ((queryShape.drop 1).dropLast ++ (valueShape.drop 1).dropLast)

/-- Modelled from the spec: the three-state cross-attention decision field
of the missing transformer_decoder.ts, set at first call and checked on
every subsequent call (spec sections 4.4 and 9). -/
inductive CrossAttnState where
  | undetermined
  | withCross
  | withoutCross
  deriving DecidableEq, Repr

/-- Modelled from the spec: the cross-attention usage check of one
TransformerDecoder.apply call of the missing transformer_decoder.ts. The
boolean records whether an encoder sequence was supplied; an undetermined
instance fixes its decision from it, a determined instance raises a
ConfigurationError on any disagreeing call (spec section 4.4). -/
def applyCrossDecision : CrossAttnState → Bool → Except String CrossAttnState
  | .undetermined, true => .ok .withCross
  | .undetermined, false => .ok .withoutCross
  | .withCross, true => .ok .withCross
  | .withCross, false =>
      .error "ConfigurationError: the layer was built with cross-attention"
  | .withoutCross, true =>
      .error "ConfigurationError: the layer was built without cross-attention"
  | .withoutCross, false => .ok .withoutCross

/-- Modelled from the spec: a sequence of decoder calls on one instance,
threading the cross-attention decision state; stops at the first raised
error (spec section 4.4). -/
def runCalls : CrossAttnState → List Bool → Except String CrossAttnState
  | st, [] => .ok st
  | st, b :: bs => do runCalls (← applyCrossDecision st b) bs

/-- Whether an Except value is a success. -/
def exceptOk {ε α : Type} : Except ε α → Bool
  | .ok _ => true
  | .error _ => false

/-- Modelled from the spec: the serializable configuration record of the
missing transformer_decoder.ts, the mapping produced by getConfig and
consumed by fromConfig (spec sections 4.4 and 6). -/
structure TransformerDecoderConfig where
  intermediateDim : Nat
  numHeads : Nat
  dropout : ℚ
  activation : String
  layerNormEpsilon : ℚ
  kernelInitializer : String
  biasInitializer : String
  normalizeFirst : Bool
  deriving DecidableEq, Repr

/-- Modelled from the spec: a TransformerDecoder instance as its
configuration plus the lazily determined cross-attention state
(spec sections 4.4 and 9). -/
structure TransformerDecoderLayer where
  config : TransformerDecoderConfig
  crossState : CrossAttnState

/-- Modelled from the spec: reconstruction of a TransformerDecoder from a
configuration mapping; the cross-attention decision of a fresh instance is
still undetermined (spec sections 4.4 and 6). -/
def TransformerDecoder.fromConfig (c : TransformerDecoderConfig) :
    TransformerDecoderLayer :=
  { config := c, crossState := .undetermined }

/-- Modelled from the spec: getConfig of the missing transformer_decoder.ts,
producing the mapping sufficient to reconstruct an identical configuration
(spec section 6). -/
def TransformerDecoderLayer.getConfig (l : TransformerDecoderLayer) :
    TransformerDecoderConfig :=
  l.config

end TfjsNlp

namespace TfjsNlp

/-- Modelled from the spec: a boolean mask tensor for the MaskBroadcaster —
a shape together with a value at every multi-index (spec section 3). -/
structure BoolMask where
  shape : List Nat
  value : List Nat → Bool

/-- Modelled from the spec: inserting one singleton axis at position `pos`
of a mask, a broadcast-expansion step that never mutates the input mask
(spec section 4.2). -/
def insertAxis (m : BoolMask) (pos : Nat) : BoolMask :=
  { shape := m.shape.take pos ++ 1 :: m.shape.drop pos,
    value := fun idx => m.value (idx.take pos ++ idx.drop (pos + 1)) }

/-- Modelled from the spec: repeated singleton-axis insertion until the mask
rank reaches the expected rank; each step inserts just before the last
`axesCount` axes, so a mask given only over trailing attention axes is
broadcast over the leading batch/heads/query axes (spec section 4.2). -/
def expandIter (axesCount : Nat) : Nat → BoolMask → BoolMask
  | 0, m => m
  | fuel + 1, m => expandIter axesCount fuel (insertAxis m (m.shape.length - axesCount))

/-- Modelled from the spec: the dimension check of the MaskBroadcaster —
every non-singleton mask dimension must equal its target attention score
dimension (spec sections 3 and 4.2). -/
def maskCompatible (maskShape scoreShape : List Nat) : Bool :=
  (maskShape.zip scoreShape).all (fun p => p.1 == 1 || p.1 == p.2)

/-- Modelled from the spec: `expand` of the MaskBroadcaster of the missing
multihead_attention.ts. The expected mask rank is
2 + numQueryAxes + numKeyAxes; a mask of larger rank raises a
ConfigurationError, a mask of lower rank gets singleton axes inserted, a
mask whose rank already matches passes through unchanged, and a
non-singleton dimension mismatching its target score dimension raises a
ConfigurationError (spec section 4.2). -/
def expandMask (scoreShape : List Nat) (numQueryAxes numKeyAxes : Nat)
    (m : BoolMask) : Except String BoolMask :=
  let expectedRank := 2 + numQueryAxes + numKeyAxes
  if expectedRank < m.shape.length then
    .error "ConfigurationError: mask rank exceeds the attention score rank"
  else
    let m2 := expandIter (numQueryAxes + numKeyAxes)
      (expectedRank - m.shape.length) m
    if maskCompatible m2.shape scoreShape then .ok m2
    else .error "ConfigurationError: mask dimension mismatch"

end TfjsNlp

namespace TfjsNlp

/-- A batched token sequence tensor: batch index, position, feature. -/
abbrev Seq3 := Nat → Nat → Nat → ℚ

/-- A key/value cache tensor of layout (batch, 2, maxSeqLen, numHeads,
keyDim): batch index, key-or-value selector (0 keys, 1 values), position,
head, head dimension (spec section 3). -/
abbrev CacheT := Nat → Nat → Nat → Nat → Nat → ℚ

/-- Modelled from the spec: the learned weights of the missing
transformer_decoder.ts without the optional cross-attention sublayer —
query/key/value/output projections of the self-attention, the two layer
normalizations, and the two feed-forward dense layers (spec section 3,
DecoderBlockState). -/
structure DecoderWeights where
  Wq : Nat → Nat → Nat → ℚ
  bq : Nat → Nat → ℚ
  Wk : Nat → Nat → Nat → ℚ
  bk : Nat → Nat → ℚ
  Wv : Nat → Nat → Nat → ℚ
  bv : Nat → Nat → ℚ
  Wo : Nat → Nat → Nat → ℚ
  bo : Nat → ℚ
  g1 : Nat → ℚ
  c1 : Nat → ℚ
  g3 : Nat → ℚ
  c3 : Nat → ℚ
  Wf1 : Nat → Nat → ℚ
  df1 : Nat → ℚ
  Wf2 : Nat → Nat → ℚ
  df2 : Nat → ℚ

/-- Modelled from the spec: a configured TransformerDecoder instance for the
numeric model. The engine scalar primitives are abstracted (spec sections 1
and 6): `e` is the engine exponential inside softmax, `r` the engine
reciprocal square root inside layer normalization, `act` the configured
activation, `scale` the 1/sqrt(keyDim) score scale. Dropout is the identity
at inference time and is omitted. -/
structure DecoderConfig where
  hiddenDim : Nat
  intermediateDim : Nat
  numHeads : Nat
  keyDim : Nat
  scale : ℚ
  eps : ℚ
  e : ℚ → ℚ
  r : ℚ → ℚ
  act : ℚ → ℚ
  normalizeFirst : Bool
  w : DecoderWeights

/-- Modelled from the spec: per-token layer normalization along the feature
axis — subtract the feature mean, scale by the reciprocal square root of
the feature variance plus epsilon, then apply gamma and beta. -/
def layerNorm (cfg : DecoderConfig) (g c : Nat → ℚ) (v : Nat → ℚ) :
    Nat → ℚ :=
  let n := cfg.hiddenDim
  let mean := (∑ f ∈ Finset.range n, v f) / (n : ℚ)
  let variance := (∑ f ∈ Finset.range n, (v f - mean) ^ 2) / (n : ℚ)
  fun f => g f * ((v f - mean) * cfg.r (variance + cfg.eps)) + c f

/-- Modelled from the spec: the token vector the self-attention sublayer
sees — the layer-normalized input under pre-norm, the raw input under
post-norm (spec section 4.4). -/
def attnTokenIn (cfg : DecoderConfig) (v : Nat → ℚ) : Nat → ℚ :=
  if cfg.normalizeFirst then layerNorm cfg cfg.w.g1 cfg.w.c1 v else v

/-- Modelled from the spec: the per-token query projection of the
self-attention, an einsum dense from features to (head, headDim)
(spec section 4.3). -/
def projQ (cfg : DecoderConfig) (v : Nat → ℚ) (h d : Nat) : ℚ :=
  (∑ f ∈ Finset.range cfg.hiddenDim, v f * cfg.w.Wq f h d) + cfg.w.bq h d

/-- Modelled from the spec: the per-token key projection of the
self-attention (spec section 4.3). -/
def projK (cfg : DecoderConfig) (v : Nat → ℚ) (h d : Nat) : ℚ :=
  (∑ f ∈ Finset.range cfg.hiddenDim, v f * cfg.w.Wk f h d) + cfg.w.bk h d

/-- Modelled from the spec: the per-token value projection of the
self-attention (spec section 4.3). -/
def projV (cfg : DecoderConfig) (v : Nat → ℚ) (h d : Nat) : ℚ :=
  (∑ f ∈ Finset.range cfg.hiddenDim, v f * cfg.w.Wv f h d) + cfg.w.bv h d

/-- Modelled from the spec: the freshly projected key written into cache
position `p` when the chunk token at chunk position `p` is processed. -/
def cacheKey (cfg : DecoderConfig) (x : Seq3) (b p h d : Nat) : ℚ :=
  projK cfg (attnTokenIn cfg (fun f => x b p f)) h d

/-- Modelled from the spec: the freshly projected value written into cache
position `p` when the chunk token at chunk position `p` is processed. -/
def cacheValue (cfg : DecoderConfig) (x : Seq3) (b p h d : Nat) : ℚ :=
  projV cfg (attnTokenIn cfg (fun f => x b p f)) h d

/-- Modelled from the spec: the cache update of the missing
cached_multihead_attention.ts. For update index `u` and an input chunk of
length `L`, positions `[u, u + L)` are overwritten with freshly projected
keys and values of the chunk; all other positions are preserved from the
input cache (spec sections 3 and 4.3). -/
def updatedCache (cfg : DecoderConfig) (L u : Nat) (x : Seq3)
    (cache : CacheT) : CacheT :=
  fun b kv p h d =>
    if u ≤ p ∧ p < u + L then
      if kv = 0 then cacheKey cfg x b (p - u) h d
      else cacheValue cfg x b (p - u) h d
    else cache b kv p h d

/-- Modelled from the spec: the scaled dot-product attention score of chunk
query position `i` against cache key position `j` (spec section 4.3). -/
def attnScore (cfg : DecoderConfig) (x : Seq3) (nc : CacheT)
    (b h i j : Nat) : ℚ :=
  cfg.scale * ∑ d ∈ Finset.range cfg.keyDim,
    projQ cfg (attnTokenIn cfg (fun f => x b i f)) h d * nc b 0 j h d

/-- Modelled from the spec: the post-softmax self-attention weight of the
decoder block. The causal mask admits key position `j` for chunk query
position `i` exactly when `j` is at most the absolute query position
`u + i`; it is merged by logical and with the user-supplied mask. The
minus-infinity-equivalent additive bias before softmax is modelled by its
idealized semantics: a masked-out position has weight exactly 0 and is
excluded from the softmax normalization over the key positions of the cache
(spec sections 4.3 and 4.4). -/
def attnWeight (cfg : DecoderConfig) (maxLen u : Nat)
    (userMask : Nat → Nat → Nat → Bool) (x : Seq3) (nc : CacheT)
    (b h i j : Nat) : ℚ :=
  if j ≤ u + i ∧ userMask b (u + i) j then
    cfg.e (attnScore cfg x nc b h i j) /
      (∑ k ∈ Finset.range maxLen,
        if k ≤ u + i ∧ userMask b (u + i) k then
          cfg.e (attnScore cfg x nc b h i k)
        else 0)
  else 0

/-- Modelled from the spec: the self-attention sublayer output for one
token — the attention-weighted sum of cached value projections, contracted
over the key positions, then the output projection back to features
(spec section 4.3). -/
def selfAttnOut (cfg : DecoderConfig) (maxLen u : Nat)
    (userMask : Nat → Nat → Nat → Bool) (x : Seq3) (nc : CacheT)
    (b i f : Nat) : ℚ :=
  (∑ h ∈ Finset.range cfg.numHeads, ∑ d ∈ Finset.range cfg.keyDim,
    (∑ j ∈ Finset.range maxLen,
      attnWeight cfg maxLen u userMask x nc b h i j * nc b 1 j h d) *
      cfg.w.Wo h d f) + cfg.w.bo f

/-- Modelled from the spec: the two-layer feed-forward network of the
decoder block (spec section 4.4). -/
def feedForward (cfg : DecoderConfig) (v : Nat → ℚ) (f : Nat) : ℚ :=
  (∑ m ∈ Finset.range cfg.intermediateDim,
    cfg.act ((∑ g ∈ Finset.range cfg.hiddenDim, v g * cfg.w.Wf1 g m) +
      cfg.w.df1 m) * cfg.w.Wf2 m f) + cfg.w.df2 f

/-- Modelled from the spec: the per-token tail of the decoder block —
residual connection around self-attention, then the feed-forward sublayer
with its residual, each normalized before the sublayer under pre-norm or
after the residual under post-norm (spec section 4.4). -/
def postToken (cfg : DecoderConfig) (xv attnv : Nat → ℚ) : Nat → ℚ :=
  let h1 : Nat → ℚ :=
    if cfg.normalizeFirst then fun f => xv f + attnv f
    else layerNorm cfg cfg.w.g1 cfg.w.c1 (fun f => xv f + attnv f)
  let ffIn : Nat → ℚ :=
    if cfg.normalizeFirst then layerNorm cfg cfg.w.g3 cfg.w.c3 h1 else h1
  if cfg.normalizeFirst then fun f => h1 f + feedForward cfg ffIn f
  else layerNorm cfg cfg.w.g3 cfg.w.c3 (fun f => h1 f + feedForward cfg ffIn f)

/-- Modelled from the spec: `callAndReturnCaches` of the missing
transformer_decoder.ts in its cached self-attention mode without
cross-attention — the cache is updated at the given index from the input
chunk, each chunk token attends causally to the updated cache, and the
block returns the per-token outputs together with the updated cache
(spec sections 4.3 and 4.4). -/
def callAndReturnCaches (cfg : DecoderConfig) (L u maxLen : Nat)
    (userMask : Nat → Nat → Nat → Bool) (x : Seq3) (cache : CacheT) :
    Seq3 × CacheT :=
  let nc := updatedCache cfg L u x cache
  (fun b i f =>
      postToken cfg (fun g => x b i g)
        (fun g => selfAttnOut cfg maxLen u userMask x nc b i g) f,
    nc)

/-- The all-ones (no-op) user attention mask, the default when no padding
mask is supplied. -/
def trivialMask : Nat → Nat → Nat → Bool := fun _ _ _ => true

/-- The length-1 chunk holding token `i` of the full sequence, as fed to the
incremental token-by-token decoding loop of the cache test. -/
def chunkAt (x : Seq3) (i : Nat) : Seq3 := fun b _ f => x b i f

/-- The cache after incrementally processing tokens `0 .. i-1` one at a
time, threading each returned cache into the next call, as in the
token-by-token loop of the cache test. -/
def incrementalCache (cfg : DecoderConfig) (maxLen : Nat) (x : Seq3)
    (cache : CacheT) : Nat → CacheT
  | 0 => cache
  | i + 1 =>
      (callAndReturnCaches cfg 1 i maxLen trivialMask (chunkAt x i)
        (incrementalCache cfg maxLen x cache i)).2

/-- The output token produced for position `i` by the incremental
token-by-token loop: the single output token of the call that processes
chunk `i` at cache update index `i`. -/
def incrementalOutput (cfg : DecoderConfig) (maxLen : Nat) (x : Seq3)
    (cache : CacheT) (b i f : Nat) : ℚ :=
  (callAndReturnCaches cfg 1 i maxLen trivialMask (chunkAt x i)
    (incrementalCache cfg maxLen x cache i)).1 b 0 f

/-- Modelled from the spec: `computeMask` of the missing
transformer_decoder.ts — the output mask of the block equals the
decoder-side padding mask unchanged, whatever the cross-attention decision
of the instance is (spec section 4.4). -/
def TransformerDecoderLayer.computeMask (l : TransformerDecoderLayer)
    (outputs : Seq3) (paddingMask : Nat → Nat → Bool) : Nat → Nat → Bool :=
  match l.crossState with
  | .undetermined => paddingMask
  | .withCross => paddingMask
  | .withoutCross => paddingMask

end TfjsNlp

namespace TfjsNlp

/-- Modelled from the spec: the numeric parameters of a (non-cached)
MultiHeadAttention forward pass of the missing multihead_attention.ts, with
`valueDim` left at its default `keyDim` and the output projection back to
the feature dimension; `e` is the abstracted engine exponential inside
softmax and `scale` the 1/sqrt(keyDim) factor (spec section 4.3). -/
structure MHAConfig where
  numHeads : Nat
  keyDim : Nat
  featureDim : Nat
  scale : ℚ
  e : ℚ → ℚ
  Wq : Nat → Nat → Nat → ℚ
  Wk : Nat → Nat → Nat → ℚ
  Wv : Nat → Nat → Nat → ℚ
  Wo : Nat → Nat → Nat → ℚ

/-- Modelled from the spec: one einsum dense projection of a token vector to
(head, headDim) coordinates (spec section 4.3). -/
def mhaProj (W : Nat → Nat → Nat → ℚ) (n : Nat) (v : Nat → ℚ)
    (h d : Nat) : ℚ :=
  ∑ f ∈ Finset.range n, v f * W f h d

/-- Modelled from the spec: the scaled dot-product attention score of query
position `i` against key position `j` (spec section 4.3). -/
def mhaScore (c : MHAConfig) (q v : Seq3) (b h i j : Nat) : ℚ :=
  c.scale * ∑ d ∈ Finset.range c.keyDim,
    mhaProj c.Wq c.featureDim (fun f => q b i f) h d *
      mhaProj c.Wk c.featureDim (fun f => v b j f) h d

/-- Modelled from the spec: the post-softmax attention weight under an
attention mask. The mask is applied as the minus-infinity-equivalent
additive bias on the scores of masked-out positions before the softmax over
the key positions, modelled by its idealized semantics: a masked-out
position has weight exactly 0 and is excluded from the normalization; the
softmax normalizes per (batch, head, query position) row
(spec section 4.3). -/
def mhaWeight (c : MHAConfig) (Tk : Nat) (mask : Nat → Nat → Nat → Bool)
    (q v : Seq3) (b h i j : Nat) : ℚ :=
  if mask b i j then
    c.e (mhaScore c q v b h i j) /
      (∑ k ∈ Finset.range Tk,
        if mask b i k then c.e (mhaScore c q v b h i k) else 0)
  else 0

/-- Modelled from the spec: the MultiHeadAttention output — the
attention-weighted sum of value projections contracted over the key
positions, then the output projection (spec section 4.3). -/
def mhaOutput (c : MHAConfig) (Tk : Nat) (mask : Nat → Nat → Nat → Bool)
    (q v : Seq3) (b i f : Nat) : ℚ :=
  ∑ h ∈ Finset.range c.numHeads, ∑ d ∈ Finset.range c.keyDim,
    (∑ j ∈ Finset.range Tk,
      mhaWeight c Tk mask q v b h i j *
        mhaProj c.Wv c.featureDim (fun g => v b j g) h d) * c.Wo h d f

end TfjsNlp

namespace TfjsNlp

/-- A tfjs tensor as used by sliceUpdate in utils.ts: a shape and the flat
row-major data buffer (dataSync order). -/
structure Tensor where
  shape : List Nat
  data : List ℚ

/-- The row-major flat position of a multi-index inside a shape, the layout
of a tfjs data buffer. -/
def flatIndex : List Nat → List Nat → Nat
  | _ :: ds, i :: is => i * ds.prod + flatIndex ds is
  | _, _ => 0

/-- Reading one entry of a tensor at a multi-index. -/
def Tensor.get (t : Tensor) (idx : List Nat) : ℚ :=
  t.data.getD (flatIndex t.shape idx) 0

/-- Sequential scatter of (multi-index, value) pairs into a tensor, each
write replacing the entry at the flat position of its multi-index. -/
def scatterList (t : Tensor) : List (List Nat × ℚ) → Tensor
  | [] => t
  | p :: rest =>
      scatterList
        { shape := t.shape, data := t.data.set (flatIndex t.shape p.1) p.2 }
        rest

/-- The engine op `tensorScatterUpdate` consumed by sliceUpdate: writes
`updates[k]` at multi-index `indices[k]` of the input tensor, later writes
winning; an external collaborator of the core (spec section 6,
scatter-style indexed update for cache writes). -/
def tensorScatterUpdate (t : Tensor) (indices : List (List Nat))
    (updates : List ℚ) : Tensor :=
  scatterList t (indices.zip updates)

/-- The index enumeration `createIndices` inside sliceUpdate of utils.ts:
all multi-indices whose coordinate at axis `d` ranges over
`[startIndices[d], startIndices[d] + updates.shape[d])`, enumerated in
lexicographic order with the first axis varying slowest, matching the
row-major order of the flattened updates. -/
def createIndices : List Nat → List Nat → List (List Nat)
  | [], _ => [[]]
  | _ :: _, [] => []
  | s :: srest, u :: urest =>
      ((List.range u).map (s + ·)).flatMap
        (fun i => (createIndices srest urest).map (i :: ·))

/-- `sliceUpdate` from utils.ts: enumerates the target indices of the
update hyper-rectangle, flattens the updates to match the enumeration, and
scatters them into the input tensor. -/
def sliceUpdate (inputs : Tensor) (startIndices : List Nat)
    (updates : Tensor) : Tensor :=
  tensorScatterUpdate inputs (createIndices startIndices updates.shape)
    updates.data

end TfjsNlp

namespace TfjsNlp

/-- All-zero decoder weights, used to instantiate witnesses on a concrete
decoder configuration. -/
def zeroWeights : DecoderWeights where
  Wq := fun _ _ _ => 0
  bq := fun _ _ => 0
  Wk := fun _ _ _ => 0
  bk := fun _ _ => 0
  Wv := fun _ _ _ => 0
  bv := fun _ _ => 0
  Wo := fun _ _ _ => 0
  bo := fun _ => 0
  g1 := fun _ => 1
  c1 := fun _ => 0
  g3 := fun _ => 1
  c3 := fun _ => 0
  Wf1 := fun _ _ => 0
  df1 := fun _ => 0
  Wf2 := fun _ _ => 0
  df2 := fun _ => 0

/-- A small concrete decoder configuration, used to instantiate witnesses. -/
def sampleDecoderConfig : DecoderConfig where
  hiddenDim := 2
  intermediateDim := 2
  numHeads := 1
  keyDim := 2
  scale := 1
  eps := 1
  e := fun _ => 1
  r := fun _ => 1
  act := fun q => q
  normalizeFirst := false
  w := zeroWeights

/-- A concrete MultiHeadAttention instance over one head, head dimension 1
and feature dimension 1 whose projections make every attention score zero
while the value projections differ across key positions; parametric in the
engine exponential. -/
def mhaC6Config (e : ℚ → ℚ) : MHAConfig where
  numHeads := 1
  keyDim := 1
  featureDim := 1
  scale := 1
  e := e
  Wq := fun _ _ _ => 0
  Wk := fun _ _ _ => 1
  Wv := fun _ _ _ => 1
  Wo := fun _ _ _ => 1

/-- A non-trivial attention mask: key position 0 visible, key position 1
masked out. -/
def maskC6 : Nat → Nat → Nat → Bool := fun _ _ j => j == 0

/-- The all-ones query input of the divergence instance. -/
def queryC6 : Seq3 := fun _ _ _ => 1

/-- The value input of the divergence instance: the token at key position j
holds the constant j, so position 0 and position 1 carry different
values. -/
def valueC6 : Seq3 := fun _ j _ => (j : ℚ)

end TfjsNlp

namespace TfjsNlp

/-- C5: analyzeEinsumString applied to equation "ab,b->a" with no bias
axes, input shape (batch, 32) with the batch dimension unknown, and output
shape () resolves the weight shape to (32,), the bias shape to none, and
the full output shape to (batch,). -/
theorem analyzeEinsumString_1d_end_weight :
    analyzeEinsumString "ab,b->a" none [none, some 32] [] =
      .ok ([32], none, [none]) := by
  rfl

/-- C4: a MultiHeadAttention layer with numHeads 12 and keyDim 64 applied
to a query of shape (batch, 40, 80) and a value of shape (batch, 20, 80)
has output shape (batch, 40, 80), and the requested attention scores have
shape (batch, 12, 40, 20), that is (batch, heads, queryPositions,
keyPositions). -/
theorem mha_shape_contract (batch : Dim) :
    mhaOutputShape { numHeads := 12, keyDim := 64 }
        [batch, some 40, some 80] = [batch, some 40, some 80] ∧
      mhaScoresShape { numHeads := 12, keyDim := 64 }
        [batch, some 40, some 80] [batch, some 20, some 80] =
        [batch, some 12, some 40, some 20] := by
  exact ⟨rfl, rfl⟩

/-- Closed instance of the C4 shape contract at an unknown batch size. -/
theorem mha_shape_contract_witness :
    mhaOutputShape { numHeads := 12, keyDim := 64 }
        [none, some 40, some 80] = [none, some 40, some 80] ∧
      mhaScoresShape { numHeads := 12, keyDim := 64 }
        [none, some 40, some 80] [none, some 20, some 80] =
        [none, some 12, some 40, some 20] :=
  mha_shape_contract none

/-- Helper for C3: once the cross-attention decision is determined by the
boolean of the first call, a sequence of further calls runs without error
exactly when every call agrees with the decision. -/
theorem runCalls_determined (b : Bool) (rest : List Bool) :
    exceptOk (runCalls (if b then .withCross else .withoutCross) rest) =
      rest.all (· == b) := by
  induction rest with
  | nil => cases b <;> simp [runCalls, exceptOk]
  | cons c cs ih =>
      cases b <;> cases c <;>
        simp_all [runCalls, applyCrossDecision, exceptOk, Except.bind, Bind.bind]

/-- C3: whether cross-attention is present is fixed at the first call by
whether an encoder sequence was supplied (the boolean of the head call);
the whole later call sequence on that instance succeeds exactly when every
later call agrees with that decision, and any disagreeing call raises the
ConfigurationError. -/
theorem crossAttention_usage_consistency (first : Bool) (rest : List Bool) :
    exceptOk (runCalls .undetermined (first :: rest)) =
      rest.all (· == first) := by
  have h := runCalls_determined first rest
  cases first <;> simpa [runCalls, applyCrossDecision] using h

/-- C9: feeding the configuration mapping returned by getConfig of a
TransformerDecoder into fromConfig yields an instance whose getConfig
output equals the original configuration. -/
theorem decoder_serialization_round_trip (l : TransformerDecoderLayer) :
    (TransformerDecoder.fromConfig l.getConfig).getConfig = l.getConfig :=
  rfl

/-- Closed instance of the C9 round trip on a concrete configuration. -/
theorem decoder_serialization_round_trip_witness :
    (TransformerDecoder.fromConfig
        (TransformerDecoderLayer.getConfig
          ⟨⟨4, 2, 0, "relu", 1 / 100000, "glorotUniform", "zeros", false⟩,
            .undetermined⟩)).getConfig =
      TransformerDecoderLayer.getConfig
        ⟨⟨4, 2, 0, "relu", 1 / 100000, "glorotUniform", "zeros", false⟩,
          .undetermined⟩ :=
  decoder_serialization_round_trip _

/-- C7: for every decoder instance (with or without cross-attention),
every output tensor and every decoder-side padding mask, computeMask on the
output returns the supplied padding mask unchanged. -/
theorem decoder_mask_propagation (l : TransformerDecoderLayer)
    (outputs : Seq3) (paddingMask : Nat → Nat → Bool) :
    l.computeMask outputs paddingMask = paddingMask := by
  cases h : l.crossState <;>
    simp [TransformerDecoderLayer.computeMask, h]

/-- Closed instance of C7 mask propagation on a concrete instance. -/
theorem decoder_mask_propagation_witness :
    TransformerDecoderLayer.computeMask
        ⟨⟨4, 2, 0, "relu", 1 / 100000, "glorotUniform", "zeros", false⟩,
          .withCross⟩
        (fun _ _ _ => 0) (fun _ j => j == 0) = fun _ j => j == 0 :=
  decoder_mask_propagation _ _ _

/-- C2: in every self-attention computation of the decoder block, the
post-softmax attention weight between chunk query position i and cache key
position j is zero whenever j exceeds the absolute query position
cacheUpdateIndex + i, for every configuration, user-supplied mask, input
chunk and cache (the causal mask is always applied and merged with the
user mask). -/
theorem causal_mask_zero_weight (cfg : DecoderConfig) (maxLen u : Nat)
    (userMask : Nat → Nat → Nat → Bool) (x : Seq3) (nc : CacheT)
    (b h i j : Nat) (hij : u + i < j) :
    attnWeight cfg maxLen u userMask x nc b h i j = 0 := by
  rw [attnWeight, if_neg]
  rintro ⟨h1, _⟩
  omega

/-- Closed instance of C2: with cacheUpdateIndex 1 and chunk query
position 0, key position 2 gets weight zero. -/
theorem causal_mask_zero_weight_witness :
    attnWeight sampleDecoderConfig 3 1 trivialMask (fun _ _ _ => 0)
      (fun _ _ _ _ _ => 0) 0 0 0 2 = 0 :=
  causal_mask_zero_weight sampleDecoderConfig 3 1 trivialMask _ _ 0 0 0 2
    (by decide)

end TfjsNlp

namespace TfjsNlp

/-- Helper: reading a zip at a position where both component reads
succeed. -/
theorem zip_get_some {α β : Type} {l1 : List α} {l2 : List β} {k : Nat}
    {a : α} {b : β} (h1 : l1.get? k = some a) (h2 : l2.get? k = some b) :
    (l1.zip l2).get? k = some (a, b) := by
  induction l1 generalizing l2 k with
  | nil => simp at h1
  | cons x xs ih =>
      cases l2 with
      | nil => simp at h2
      | cons y ys =>
          cases k with
          | zero =>
              simp only [List.get?] at h1 h2
              cases h1; cases h2; rfl
          | succ k =>
              simp only [List.get?] at h1 h2 ⊢
              exact ih h1 h2

/-- Helper: a list read at an in-bounds position succeeds with the default
read value. -/
theorem get?_eq_some_getD {α : Type} [Inhabited α] {l : List α} {k : Nat}
    (hk : k < l.length) : l.get? k = some (l.getD k default) := by
  induction l generalizing k with
  | nil => simp at hk
  | cons x xs ih =>
      cases k with
      | zero => rfl
      | succ k =>
          simp only [List.get?, List.getD, List.length_cons] at hk ⊢
          exact ih (by omega)

/-- Helper for C8: one non-singleton dimension mismatching its target makes
the whole compatibility check fail. -/
theorem maskCompatible_false {ms ss : List Nat} {d : Nat}
    (hd1 : d < ms.length) (hd2 : d < ss.length)
    (h1 : ms.getD d 0 ≠ 1) (h2 : ms.getD d 0 ≠ ss.getD d 0) :
    maskCompatible ms ss = false := by
  have hm : ms.get? d = some (ms.getD d 0) := get?_eq_some_getD hd1
  have hs : ss.get? d = some (ss.getD d 0) := get?_eq_some_getD hd2
  have hmem : (ms.getD d 0, ss.getD d 0) ∈ ms.zip ss :=
    List.get?_mem (zip_get_some hm hs)
  rw [Bool.eq_false_iff]
  intro hall
  rw [maskCompatible, List.all_eq_true] at hall
  have := hall _ hmem
  simp only [Bool.or_eq_true, beq_iff_eq] at this
  tauto

/-- C8: a boolean mask whose rank already equals the expected rank
2 + numQueryAxes + numKeyAxes and whose non-singleton dimensions match the
score dimensions passes through expand unchanged (so expansion is
idempotent); expand fails whenever the mask rank exceeds the expected rank,
and whenever some non-singleton mask dimension mismatches its target score
dimension. -/
theorem mask_expand_pass_and_errors (scoreShape : List Nat) (nq nk : Nat)
    (m : BoolMask) :
    (m.shape.length = 2 + nq + nk →
        maskCompatible m.shape scoreShape = true →
        expandMask scoreShape nq nk m = .ok m) ∧
      (2 + nq + nk < m.shape.length →
        exceptOk (expandMask scoreShape nq nk m) = false) ∧
      (m.shape.length = 2 + nq + nk →
        ∀ d, d < m.shape.length → d < scoreShape.length →
          m.shape.getD d 0 ≠ 1 → m.shape.getD d 0 ≠ scoreShape.getD d 0 →
          exceptOk (expandMask scoreShape nq nk m) = false) := by
  refine ⟨?_, ?_, ?_⟩
  · intro hr hc
    rw [expandMask, if_neg (by omega)]
    have h0 : 2 + nq + nk - m.shape.length = 0 := by omega
    rw [h0]
    simp [expandIter, hc]
  · intro hr
    rw [expandMask, if_pos (by omega)]
    rfl
  · intro hr d hd1 hd2 h1 h2
    rw [expandMask, if_neg (by omega)]
    have h0 : 2 + nq + nk - m.shape.length = 0 := by omega
    rw [h0]
    simp [expandIter, maskCompatible_false hd1 hd2 h1 h2, exceptOk]

/-- Closed instances of C8: rank-4 pass-through on score shape (1,2,3,4),
an over-ranked mask fails, and a rank-matching mask with a mismatching
non-singleton trailing dimension fails. -/
theorem mask_expand_pass_and_errors_witness :
    expandMask [1, 2, 3, 4] 1 1 ⟨[1, 2, 3, 4], fun _ => true⟩ =
        .ok ⟨[1, 2, 3, 4], fun _ => true⟩ ∧
      exceptOk
          (expandMask [1, 2, 3, 4] 1 1 ⟨[1, 1, 2, 3, 4], fun _ => true⟩) =
        false ∧
      exceptOk
          (expandMask [1, 2, 3, 4] 1 1 ⟨[1, 2, 3, 5], fun _ => true⟩) =
        false :=
  ⟨(mask_expand_pass_and_errors [1, 2, 3, 4] 1 1 _).1 (by decide) (by rfl),
    (mask_expand_pass_and_errors [1, 2, 3, 4] 1 1 _).2.1 (by decide),
    (mask_expand_pass_and_errors [1, 2, 3, 4] 1 1 _).2.2 (by decide) 3
      (by decide) (by decide) (by decide) (by decide)⟩

end TfjsNlp

namespace TfjsNlp

/-- C6: there are inputs and a not-all-ones attention mask on which the
MultiHeadAttention output differs from the output on the same inputs with
the all-ones mask of the same shape, for every strictly positive engine
exponential inside the softmax (the mask acts as the
minus-infinity-equivalent additive score bias before the softmax over the
key positions). -/
theorem masked_vs_unmasked_divergence (e : ℚ → ℚ) (he : ∀ q, 0 < e q) :
    maskC6 0 0 1 = false ∧
      mhaOutput (mhaC6Config e) 2 maskC6 queryC6 valueC6 0 0 0 ≠
        mhaOutput (mhaC6Config e) 2 trivialMask queryC6 valueC6 0 0 0 := by
  have hE : e 0 ≠ 0 := ne_of_gt (he 0)
  refine ⟨rfl, ?_⟩
  simp only [mhaOutput, mhaWeight, mhaScore, mhaProj, mhaC6Config, maskC6,
    trivialMask, queryC6, valueC6, Finset.sum_range_succ,
    Finset.sum_range_zero]
  norm_num
  intro h
  have h2 : e 0 + e 0 ≠ 0 := by
    have := he 0
    intro hc
    nlinarith
  rw [eq_comm, div_eq_zero_iff] at h
  rcases h with h | h
  · exact hE h
  · exact h2 h

end TfjsNlp

namespace TfjsNlp

/-- Closed instance of the C6 divergence with the constant-one engine
exponential. -/
theorem masked_vs_unmasked_divergence_witness :
    maskC6 0 0 1 = false ∧
      mhaOutput (mhaC6Config fun _ => 1) 2 maskC6 queryC6 valueC6 0 0 0 ≠
        mhaOutput (mhaC6Config fun _ => 1) 2 trivialMask queryC6 valueC6
          0 0 0 :=
  masked_vs_unmasked_divergence (fun _ => 1) (fun _ => by norm_num)

end TfjsNlp

namespace TfjsNlp

/-- Helper: the causal mask makes any attention weight beyond the absolute
query position vanish, whatever the remaining data. -/
theorem attnWeight_zero_of_causal (cfg : DecoderConfig) (maxLen u : Nat)
    (userMask : Nat → Nat → Nat → Bool) (x : Seq3) (nc : CacheT)
    (b h i j : Nat) (hij : u + i < j) :
    attnWeight cfg maxLen u userMask x nc b h i j = 0 := by
  rw [attnWeight, if_neg]
  rintro ⟨h1, _⟩
  omega

/-- Helper: the one-shot cache update at index 0 overwrites exactly the
positions below the chunk length with the projected keys and values of the
corresponding tokens. -/
theorem updatedCache_zero (cfg : DecoderConfig) (L : Nat) (x : Seq3)
    (cache : CacheT) :
    updatedCache cfg L 0 x cache = fun b kv p h d =>
      if p < L then
        if kv = 0 then cacheKey cfg x b p h d else cacheValue cfg x b p h d
      else cache b kv p h d := by
  funext b kv p h d
  simp only [updatedCache, Nat.zero_add, Nat.sub_zero, Nat.zero_le, true_and]

/-- Helper: after incrementally processing tokens 0 .. i-1 one at a time,
the cache holds the projected keys and values of exactly those tokens and
is untouched elsewhere. -/
theorem incrementalCache_eq (cfg : DecoderConfig) (maxLen : Nat) (x : Seq3)
    (cache : CacheT) (i : Nat) :
    incrementalCache cfg maxLen x cache i = fun b kv p h d =>
      if p < i then
        if kv = 0 then cacheKey cfg x b p h d else cacheValue cfg x b p h d
      else cache b kv p h d := by
  induction i with
  | zero =>
      funext b kv p h d
      simp [incrementalCache]
  | succ i ih =>
      funext b kv p h d
      simp only [incrementalCache, callAndReturnCaches, ih, updatedCache]
      by_cases hp : i ≤ p ∧ p < i + 1
      · have hpi : p = i := by omega
        subst hpi
        rw [if_pos hp, if_pos (Nat.lt_succ_self p)]
        rfl
      · rw [if_neg hp]
        by_cases hpi : p < i
        · rw [if_pos hpi, if_pos (show p < i + 1 by omega)]
        · rw [if_neg hpi, if_neg (show ¬p < i + 1 by omega)]

/-- Helper: at every cache position up to the current absolute query
position, the cache updated by the incremental call at index i agrees with
the cache updated by the one-shot call at index 0 over the full chunk. -/
theorem caches_agree (cfg : DecoderConfig) (L maxLen i : Nat) (x : Seq3)
    (cache : CacheT) (hiL : i < L) (b kv j h d : Nat) (hj : j ≤ i) :
    updatedCache cfg 1 i (chunkAt x i)
        (incrementalCache cfg maxLen x cache i) b kv j h d =
      updatedCache cfg L 0 x cache b kv j h d := by
  rw [incrementalCache_eq]
  simp only [updatedCache]
  by_cases hji : j = i
  · subst hji
    rw [if_pos ⟨le_refl j, by omega⟩, if_pos (by omega : 0 ≤ j ∧ j < 0 + L)]
    rfl
  · rw [if_neg (by omega), if_pos (by omega : j < i),
      if_pos (by omega : 0 ≤ j ∧ j < 0 + L)]
    rfl

/-- Helper: with the trivial user mask, the post-softmax attention weights
of the incremental call for token i at update index i equal those of the
one-shot call at index 0 for query position i. -/
theorem attnWeight_cached_eq (cfg : DecoderConfig) (L maxLen i : Nat)
    (x : Seq3) (cache : CacheT) (hiL : i < L) (b h j : Nat) :
    attnWeight cfg maxLen i trivialMask (chunkAt x i)
        (updatedCache cfg 1 i (chunkAt x i)
          (incrementalCache cfg maxLen x cache i)) b h 0 j =
      attnWeight cfg maxLen 0 trivialMask x (updatedCache cfg L 0 x cache)
        b h i j := by
  have hscore : ∀ k, k ≤ i →
      attnScore cfg (chunkAt x i)
          (updatedCache cfg 1 i (chunkAt x i)
            (incrementalCache cfg maxLen x cache i)) b h 0 k =
        attnScore cfg x (updatedCache cfg L 0 x cache) b h i k := by
    intro k hk
    simp only [attnScore]
    congr 1
    refine Finset.sum_congr rfl fun d _ => ?_
    rw [caches_agree cfg L maxLen i x cache hiL b 0 k h d hk]
    rfl
  simp only [attnWeight, trivialMask, Nat.add_zero, Nat.zero_add,
    eq_self_iff_true, and_true]
  by_cases hj : j ≤ i
  · rw [if_pos hj, if_pos hj, hscore j hj]
    congr 1
    refine Finset.sum_congr rfl fun k _ => ?_
    by_cases hk : k ≤ i
    · rw [if_pos hk, if_pos hk, hscore k hk]
    · rw [if_neg hk, if_neg hk]
  · rw [if_neg hj, if_neg hj]

/-- Helper: the self-attention sublayer output of the incremental call for
token i equals that of the one-shot call at query position i. -/
theorem selfAttnOut_cached_eq (cfg : DecoderConfig) (L maxLen i : Nat)
    (x : Seq3) (cache : CacheT) (hiL : i < L) (b f : Nat) :
    selfAttnOut cfg maxLen i trivialMask (chunkAt x i)
        (updatedCache cfg 1 i (chunkAt x i)
          (incrementalCache cfg maxLen x cache i)) b 0 f =
      selfAttnOut cfg maxLen 0 trivialMask x (updatedCache cfg L 0 x cache)
        b i f := by
  simp only [selfAttnOut]
  congr 1
  refine Finset.sum_congr rfl fun h _ => ?_
  refine Finset.sum_congr rfl fun d _ => ?_
  congr 1
  refine Finset.sum_congr rfl fun j _ => ?_
  by_cases hj : j ≤ i
  · rw [attnWeight_cached_eq cfg L maxLen i x cache hiL b h j,
      caches_agree cfg L maxLen i x cache hiL b 1 j h d hj]
  · rw [attnWeight_zero_of_causal cfg maxLen i trivialMask (chunkAt x i) _
      b h 0 j (by omega),
      attnWeight_zero_of_causal cfg maxLen 0 trivialMask x _
      b h i j (by omega),
      zero_mul, zero_mul]

/-- C1: for a transformer decoder block with a self-attention cache of
layout (batch, 2, maxSeqLen, numHeads, keyDim), running incrementally
token by token with cache updates at indices 0 .. L-1 and concatenating
the per-token outputs yields exactly the same output tokens and the same
final cache as one call over the full length-L chunk at cacheUpdateIndex 0,
for every configuration, input and initial cache (exact equality in the
rational model, the idealization of equality within floating-point
tolerance). -/
theorem cache_call_is_correct (cfg : DecoderConfig) (L maxLen : Nat)
    (x : Seq3) (cache : CacheT) :
    (∀ b i f, i < L →
        (callAndReturnCaches cfg L 0 maxLen trivialMask x cache).1 b i f =
          incrementalOutput cfg maxLen x cache b i f) ∧
      (callAndReturnCaches cfg L 0 maxLen trivialMask x cache).2 =
        incrementalCache cfg maxLen x cache L := by
  constructor
  · intro b i f hiL
    simp only [callAndReturnCaches, incrementalOutput]
    exact congrArg (fun v => postToken cfg (fun g => x b i g) v f)
      (funext fun g =>
        (selfAttnOut_cached_eq cfg L maxLen i x cache hiL b g).symm)
  · funext b kv p h d
    simp only [callAndReturnCaches, incrementalCache_eq, updatedCache]
    by_cases hp : p < L
    · rw [if_pos (by omega : 0 ≤ p ∧ p < 0 + L), if_pos hp]
      rfl
    · rw [if_neg (by omega), if_neg hp]

/-- Closed instance of C1 on a concrete configuration, sequence length 2,
cache length 3, token position 1. -/
theorem cache_call_is_correct_witness :
    (callAndReturnCaches sampleDecoderConfig 2 0 3 trivialMask
        (fun _ _ _ => 0) (fun _ _ _ _ _ => 0)).1 0 1 0 =
      incrementalOutput sampleDecoderConfig 3 (fun _ _ _ => 0)
        (fun _ _ _ _ _ => 0) 0 1 0 :=
  (cache_call_is_correct sampleDecoderConfig 2 3 (fun _ _ _ => 0)
    (fun _ _ _ _ _ => 0)).1 0 1 0 (by decide)

end TfjsNlp

namespace TfjsNlp

/-- Helper: build a pointwise Forall₂ relation from indexed reads. -/
theorem forall₂_of_getD {R : Nat → Nat → Prop} :
    ∀ {l1 l2 : List Nat}, l1.length = l2.length →
      (∀ k, k < l1.length → R (l1.getD k 0) (l2.getD k 0)) →
      List.Forall₂ R l1 l2 := by
  intro l1
  induction l1 with
  | nil =>
      intro l2 hl _
      cases l2 with
      | nil => exact List.Forall₂.nil
      | cons b bs => simp at hl
  | cons a as ih =>
      intro l2 hl h
      cases l2 with
      | nil => simp at hl
      | cons b bs =>
          refine List.Forall₂.cons (h 0 (by simp)) (ih (by simpa using hl) ?_)
          intro k hk
          exact h (k + 1) (by simpa using hk)

/-- Helper: extract an indexed read fact from a Forall₂ relation. -/
theorem forall₂_getD {R : Nat → Nat → Prop} :
    ∀ {l1 l2 : List Nat}, List.Forall₂ R l1 l2 →
      ∀ k, k < l1.length → R (l1.getD k 0) (l2.getD k 0) := by
  intro l1 l2 h
  induction h with
  | nil => intro k hk; simp at hk
  | cons h1 _ ih =>
      intro k hk
      cases k with
      | zero => exact h1
      | succ k => exact ih k (by simpa using hk)

/-- Helper: an indexed read of a pointwise zipWith. -/
theorem zipWith_getD (f : Nat → Nat → Nat) :
    ∀ (l1 l2 : List Nat) (k : Nat), k < l1.length → k < l2.length →
      (List.zipWith f l1 l2).getD k 0 =
        f (l1.getD k 0) (l2.getD k 0) := by
  intro l1
  induction l1 with
  | nil => intro l2 k h1 _; simp at h1
  | cons a as ih =>
      intro l2 k h1 h2
      cases l2 with
      | nil => simp at h2
      | cons b bs =>
          cases k with
          | zero => rfl
          | succ k =>
              exact ih bs k (by simpa using h1) (by simpa using h2)

/-- Helper: adding back componentwise differences recovers the index. -/
theorem zipWith_add_sub_cancel :
    ∀ (s idx : List Nat), s.length = idx.length →
      (∀ k, k < s.length → s.getD k 0 ≤ idx.getD k 0) →
      List.zipWith (· + ·) s (List.zipWith (fun a b => a - b) idx s) =
        idx := by
  intro s
  induction s with
  | nil =>
      intro idx hl _
      cases idx with
      | nil => rfl
      | cons => simp at hl
  | cons a as ih =>
      intro idx hl h
      cases idx with
      | nil => simp at hl
      | cons b bs =>
          have h0 : a ≤ b := h 0 (by simp)
          simp only [List.zipWith_cons_cons, List.cons.injEq]
          refine ⟨by omega, ih bs (by simpa using hl) ?_⟩
          intro k hk
          exact h (k + 1) (by simpa using hk)

/-- Helper: the row-major flat position of an in-bounds multi-index is
below the shape volume. -/
theorem flatIndex_lt :
    ∀ {idx shape : List Nat}, List.Forall₂ (· < ·) idx shape →
      flatIndex shape idx < shape.prod := by
  intro idx shape h
  induction h with
  | nil => simp [flatIndex]
  | @cons a b as bs h1 _ ih =>
      have hstep : a * bs.prod + flatIndex bs as < (a + 1) * bs.prod := by
        rw [Nat.succ_mul]
        omega
      calc flatIndex (b :: bs) (a :: as)
          = a * bs.prod + flatIndex bs as := rfl
        _ < (a + 1) * bs.prod := hstep
        _ ≤ b * bs.prod := Nat.mul_le_mul_right _ (by omega)
        _ ≤ (b :: bs).prod := by simp [Nat.mul_comm]

/-- Helper: the row-major flat position is injective on in-bounds
multi-indices of a common shape. -/
theorem flatIndex_inj :
    ∀ {shape idx1 idx2 : List Nat}, List.Forall₂ (· < ·) idx1 shape →
      List.Forall₂ (· < ·) idx2 shape →
      flatIndex shape idx1 = flatIndex shape idx2 → idx1 = idx2 := by
  intro shape
  induction shape with
  | nil =>
      intro idx1 idx2 h1 h2 _
      cases h1
      cases h2
      rfl
  | cons b bs ih =>
      intro idx1 idx2 h1 h2 heq
      cases h1 with
      | cons ha1 htail1 =>
          cases h2 with
          | cons ha2 htail2 =>
              rename_i a1 as1 a2 as2
              have hr1 : flatIndex bs as1 < bs.prod := flatIndex_lt htail1
              have hr2 : flatIndex bs as2 < bs.prod := flatIndex_lt htail2
              have hP : 0 < bs.prod := by omega
              have hfl : a1 * bs.prod + flatIndex bs as1 =
                  a2 * bs.prod + flatIndex bs as2 := heq
              have ha : a1 = a2 := by
                have e1 : (bs.prod * a1 + flatIndex bs as1) / bs.prod =
                    a1 + flatIndex bs as1 / bs.prod := Nat.mul_add_div hP _ _
                have e2 : (bs.prod * a2 + flatIndex bs as2) / bs.prod =
                    a2 + flatIndex bs as2 / bs.prod := Nat.mul_add_div hP _ _
                rw [Nat.div_eq_of_lt hr1] at e1
                rw [Nat.div_eq_of_lt hr2] at e2
                have hsame : bs.prod * a1 + flatIndex bs as1 =
                    bs.prod * a2 + flatIndex bs as2 := by
                  rw [Nat.mul_comm bs.prod a1, Nat.mul_comm bs.prod a2]
                  exact hfl
                have hdiv : (bs.prod * a1 + flatIndex bs as1) / bs.prod =
                    (bs.prod * a2 + flatIndex bs as2) / bs.prod := by
                  rw [hsame]
                omega
              subst ha
              have : flatIndex bs as1 = flatIndex bs as2 := by omega
              rw [ih htail1 htail2 this]

end TfjsNlp

namespace TfjsNlp

/-- Helper: the enumeration of a hyper-rectangle has exactly one entry per
cell. -/
theorem ci_length :
    ∀ (s u : List Nat), s.length = u.length →
      (createIndices s u).length = u.prod := by
  intro s
  induction s with
  | nil =>
      intro u h
      cases u with
      | nil => rfl
      | cons => simp at h
  | cons s0 sr ih =>
      intro u h
      cases u with
      | nil => simp at h
      | cons u0 ur =>
          simp only [createIndices, List.length_flatMap, List.map_map,
            List.prod_cons]
          have hconst :
              List.map
                  ((List.length ∘ fun i =>
                      List.map (fun x => i :: x) (createIndices sr ur)) ∘
                    fun x => s0 + x)
                  (List.range u0) =
                List.map (fun _ => ur.prod) (List.range u0) :=
            List.map_congr_left fun k _ => by
              simp [Function.comp, ih ur (by simpa using h)]
          rw [hconst]
          simp [List.map_const', List.sum_replicate]

end TfjsNlp

namespace TfjsNlp

/-- Helper: the enumeration of a rectangle peels off the slice at the first
coordinate and continues with the shifted remainder. -/
theorem ci_succ (s0 n : Nat) (sr ur : List Nat) :
    createIndices (s0 :: sr) ((n + 1) :: ur) =
      (createIndices sr ur).map (s0 :: ·) ++
        createIndices ((s0 + 1) :: sr) (n :: ur) := by
  simp only [createIndices, List.range_succ_eq_map, List.map_cons,
    List.flatMap_cons, List.map_map]
  have hfun : ((fun x => s0 + x) ∘ Nat.succ) = fun x => s0 + 1 + x := by
    funext k
    simp only [Function.comp]
    omega
  rw [hfun]
  congr 1

/-- Helper: reading the rectangle enumeration one first-coordinate slice at
a time. -/
theorem ci_get_aux (sr ur : List Nat) (tail : List Nat) (r : Nat)
    (hr : r < (createIndices sr ur).length)
    (hget : (createIndices sr ur).get? r = some tail) :
    ∀ (o0 u0 s0 : Nat), o0 < u0 →
      (createIndices (s0 :: sr) (u0 :: ur)).get?
          (o0 * (createIndices sr ur).length + r) =
        some ((s0 + o0) :: tail) := by
  intro o0
  induction o0 with
  | zero =>
      intro u0 s0 h
      obtain ⟨m, rfl⟩ : ∃ m, u0 = m + 1 := ⟨u0 - 1, by omega⟩
      rw [ci_succ, Nat.zero_mul, Nat.zero_add,
        List.get?_append (by simpa using hr), List.get?_map, hget]
      simp
  | succ k ih =>
      intro u0 s0 h
      obtain ⟨m, rfl⟩ : ∃ m, u0 = m + 1 := ⟨u0 - 1, by omega⟩
      have hL : (createIndices sr ur).length ≤
          (k + 1) * (createIndices sr ur).length + r := by
        have := Nat.le_mul_of_pos_left (createIndices sr ur).length
          (show 0 < k + 1 by omega)
        omega
      rw [ci_succ, List.get?_append_right (by simpa using hL)]
      have harith : (k + 1) * (createIndices sr ur).length + r -
          ((createIndices sr ur).map (s0 :: ·)).length =
          k * (createIndices sr ur).length + r := by
        rw [List.length_map, Nat.succ_mul]
        omega
      rw [harith, ih m (s0 + 1) (by omega)]
      have : s0 + 1 + k = s0 + (k + 1) := by omega
      rw [this]

/-- Helper: the rectangle enumeration read at the row-major flat position of
an offset yields the start indices shifted by that offset. -/
theorem ci_get :
    ∀ {o u : List Nat}, List.Forall₂ (· < ·) o u →
      ∀ s : List Nat, s.length = u.length →
        (createIndices s u).get? (flatIndex u o) =
          some (List.zipWith (· + ·) s o) := by
  intro o u h
  induction h with
  | nil =>
      intro s hs
      cases s with
      | nil => rfl
      | cons => simp at hs
  | @cons o0 u0 orest urest h1 h2 ih =>
      intro s hs
      cases s with
      | nil => simp at hs
      | cons s0 sr =>
          have hlen : (createIndices sr urest).length = urest.prod :=
            ci_length sr urest (by simpa using hs)
          have hflt : flatIndex urest orest < (createIndices sr urest).length := by
            rw [hlen]; exact flatIndex_lt h2
          have hflat : flatIndex (u0 :: urest) (o0 :: orest) =
              o0 * (createIndices sr urest).length + flatIndex urest orest := by
            rw [hlen]; rfl
          rw [hflat]
          exact ci_get_aux sr urest _ _ hflt (ih sr (by simpa using hs))
            o0 u0 s0 h1

end TfjsNlp

namespace TfjsNlp

/-- Helper: every entry of the rectangle enumeration is the start indices
shifted by an offset inside the rectangle. -/
theorem ci_mem :
    ∀ {s u idx : List Nat}, idx ∈ createIndices s u → s.length = u.length →
      ∃ o, List.Forall₂ (· < ·) o u ∧ idx = List.zipWith (· + ·) s o := by
  intro s
  induction s with
  | nil =>
      intro u idx hm hl
      cases u with
      | nil =>
          simp only [createIndices, List.mem_singleton] at hm
          exact ⟨[], List.Forall₂.nil, by simp [hm]⟩
      | cons => simp at hl
  | cons s0 sr ih =>
      intro u idx hm hl
      cases u with
      | nil => simp at hl
      | cons u0 ur =>
          simp only [createIndices, List.mem_flatMap, List.mem_map] at hm
          obtain ⟨a, ⟨k, hk, rfl⟩, t, ht, rfl⟩ := hm
          obtain ⟨o, ho, rfl⟩ := ih ht (by simpa using hl)
          exact ⟨k :: o,
            List.Forall₂.cons (List.mem_range.mp hk) ho, rfl⟩

/-- Helper: the rectangle enumeration has no duplicate entries. -/
theorem ci_nodup :
    ∀ (s u : List Nat), s.length = u.length →
      (createIndices s u).Nodup := by
  intro s
  induction s with
  | nil =>
      intro u h
      cases u with
      | nil => simp [createIndices]
      | cons => simp at h
  | cons s0 sr ih =>
      intro u h
      cases u with
      | nil => simp at h
      | cons u0 ur =>
          show (((List.range u0).map (s0 + ·)).flatMap
            (fun i => (createIndices sr ur).map (i :: ·))).Nodup
          rw [List.nodup_flatMap]
          constructor
          · intro a _
            exact (ih ur (by simpa using h)).map
              (fun x y hxy => by injection hxy)
          · rw [List.pairwise_map]
            have hpw : (List.range u0).Pairwise (· < ·) :=
              List.pairwise_lt_range u0
            refine hpw.imp ?_
            intro a b hab
            intro idx h1 h2
            simp only [List.mem_map] at h1 h2
            obtain ⟨t1, _, rfl⟩ := h1
            obtain ⟨t2, _, heq⟩ := h2
            injection heq with he _
            omega

end TfjsNlp

namespace TfjsNlp

/-- Helper: scattering never changes the tensor shape. -/
theorem scatterList_shape :
    ∀ (l : List (List Nat × ℚ)) (t : Tensor),
      (scatterList t l).shape = t.shape := by
  intro l
  induction l with
  | nil => intro t; rfl
  | cons q rest ih => intro t; exact ih _

/-- Helper: scattering never changes the data buffer length. -/
theorem scatterList_data_length :
    ∀ (l : List (List Nat × ℚ)) (t : Tensor),
      (scatterList t l).data.length = t.data.length := by
  intro l
  induction l with
  | nil => intro t; rfl
  | cons q rest ih =>
      intro t
      rw [scatterList, ih]
      exact List.length_set ..

/-- Helper: a flat position touched by no scattered index keeps its
value. -/
theorem scatterList_getD_notin :
    ∀ (l : List (List Nat × ℚ)) (t : Tensor) (p : Nat),
      (∀ pr ∈ l, flatIndex t.shape pr.1 ≠ p) →
      (scatterList t l).data.getD p 0 = t.data.getD p 0 := by
  intro l
  induction l with
  | nil => intro t p _; rfl
  | cons q rest ih =>
      intro t p h
      rw [scatterList]
      have step := ih
        { shape := t.shape, data := t.data.set (flatIndex t.shape q.1) q.2 }
        p (fun pr hpr => h pr (by simp [hpr]))
      rw [step]
      show (t.data.set (flatIndex t.shape q.1) q.2).getD p 0 =
        t.data.getD p 0
      simp only [List.getD_eq_getD_get?]
      rw [List.get?_set_ne _ _ (h q (by simp))]

/-- Helper: when the scattered flat positions are pairwise distinct, the
value written for a pair in the list is the value read back at its flat
position. -/
theorem scatterList_getD_mem (shape : List Nat) :
    ∀ (l : List (List Nat × ℚ)) (t : Tensor) (i : List Nat) (v : ℚ),
      t.shape = shape →
      (l.map fun pr => flatIndex shape pr.1).Nodup →
      (i, v) ∈ l →
      flatIndex shape i < t.data.length →
      (scatterList t l).data.getD (flatIndex shape i) 0 = v := by
  intro l
  induction l with
  | nil => intro t i v _ _ hm _; simp at hm
  | cons q rest ih =>
      intro t i v hs hn hm hlt
      simp only [List.map_cons, List.nodup_cons] at hn
      rcases List.mem_cons.mp hm with heq | hmem
      · subst heq
        have hno : ∀ pr ∈ rest,
            flatIndex t.shape pr.1 ≠ flatIndex shape i := by
          intro pr hpr hcontra
          apply hn.1
          rw [hs] at hcontra
          rw [← hcontra]
          exact List.mem_map_of_mem _ hpr
        rw [scatterList]
        have step := scatterList_getD_notin rest
          { shape := t.shape,
            data := t.data.set (flatIndex t.shape (i, v).1) (i, v).2 }
          (flatIndex shape i) hno
        rw [step]
        show (t.data.set (flatIndex t.shape i) v).getD
          (flatIndex shape i) 0 = v
        rw [hs]
        simp only [List.getD_eq_getD_get?]
        rw [List.get?_set_eq_of_lt _ hlt]
        rfl
      · rw [scatterList]
        have hlt2 : flatIndex shape i <
            (t.data.set (flatIndex t.shape q.1) q.2).length := by
          rw [List.length_set]
          exact hlt
        exact ih
          { shape := t.shape,
            data := t.data.set (flatIndex t.shape q.1) q.2 }
          i v hs hn.2 hmem hlt2

end TfjsNlp

namespace TfjsNlp

/-- Helper: mapping a function of the first components over a zip of
lists of matching length. -/
theorem map_fst_zip_comp {α β γ : Type} (f : α → γ) :
    ∀ (l1 : List α) (l2 : List β), l1.length ≤ l2.length →
      (l1.zip l2).map (fun pr => f pr.1) = l1.map f := by
  intro l1
  induction l1 with
  | nil => intro l2 _; rfl
  | cons a as ih =>
      intro l2 h
      cases l2 with
      | nil => simp at h
      | cons b bs => simp [ih bs (by simpa using h)]

/-- Helper: start indices plus in-rectangle offsets stay inside the
enclosing shape. -/
theorem forall₂_sum_bound :
    ∀ {o u : List Nat}, List.Forall₂ (· < ·) o u →
      ∀ (s shape : List Nat), s.length = u.length →
        shape.length = u.length →
        (∀ k, k < u.length → s.getD k 0 + u.getD k 0 ≤ shape.getD k 0) →
        List.Forall₂ (· < ·) (List.zipWith (· + ·) s o) shape := by
  intro o u h
  induction h with
  | nil =>
      intro s shape hs hsh _
      cases s with
      | nil =>
          cases shape with
          | nil => exact List.Forall₂.nil
          | cons => simp at hsh
      | cons => simp at hs
  | @cons o0 u0 orest urest h1 h2 ih =>
      intro s shape hs hsh hb
      cases s with
      | nil => simp at hs
      | cons s0 sr =>
          cases shape with
          | nil => simp at hsh
          | cons sh0 shr =>
              have hb0 := hb 0 (by simp)
              simp only [List.getD_cons_zero] at hb0
              refine List.Forall₂.cons (by simp; omega) ?_
              refine ih sr shr (by simpa using hs) (by simpa using hsh) ?_
              intro k hk
              exact hb (k + 1) (by simpa using hk)

end TfjsNlp

namespace TfjsNlp

/-- C10: for every input tensor, per-axis start indices and updates tensor
fitting inside the input shape, sliceUpdate returns a tensor with the shape
of the inputs whose entries inside the hyper-rectangle from the start
indices to the start indices plus the updates shape equal the
corresponding updates entries, and whose entries outside that rectangle
equal those of the inputs (the embedding is purely functional, so the
input tensor itself is never modified). -/
theorem sliceUpdate_correct (inputs : Tensor) (startIndices : List Nat)
    (updates : Tensor)
    (hdata : inputs.data.length = inputs.shape.prod)
    (hudata : updates.data.length = updates.shape.prod)
    (hsl : startIndices.length = inputs.shape.length)
    (hul : updates.shape.length = inputs.shape.length)
    (hbound : ∀ k, k < inputs.shape.length →
      startIndices.getD k 0 + updates.shape.getD k 0 ≤
        inputs.shape.getD k 0) :
    (sliceUpdate inputs startIndices updates).shape = inputs.shape ∧
      (∀ idx : List Nat, idx.length = inputs.shape.length →
        (∀ k, k < idx.length →
          startIndices.getD k 0 ≤ idx.getD k 0 ∧
            idx.getD k 0 <
              startIndices.getD k 0 + updates.shape.getD k 0) →
        (sliceUpdate inputs startIndices updates).get idx =
          updates.get (List.zipWith (fun a b => a - b) idx startIndices)) ∧
      (∀ idx : List Nat, idx.length = inputs.shape.length →
        (∀ k, k < idx.length → idx.getD k 0 < inputs.shape.getD k 0) →
        ¬(∀ k, k < idx.length →
          startIndices.getD k 0 ≤ idx.getD k 0 ∧
            idx.getD k 0 <
              startIndices.getD k 0 + updates.shape.getD k 0) →
        (sliceUpdate inputs startIndices updates).get idx =
          inputs.get idx) := by
  have hszu : startIndices.length = updates.shape.length := by omega
  have hciNodup : (createIndices startIndices updates.shape).Nodup :=
    ci_nodup _ _ hszu
  have hmemBound : ∀ idx ∈ createIndices startIndices updates.shape,
      List.Forall₂ (· < ·) idx inputs.shape := by
    intro idx hidx
    obtain ⟨o, ho, rfl⟩ := ci_mem hidx hszu
    exact forall₂_sum_bound ho startIndices inputs.shape (by omega)
      (by omega) (fun k hk => hbound k (by omega))
  have hflatsNodup :
      ((createIndices startIndices updates.shape).map
        (fun idx => flatIndex inputs.shape idx)).Nodup :=
    List.Nodup.map_on
      (fun x hx y hy hxy =>
        flatIndex_inj (hmemBound x hx) (hmemBound y hy) hxy)
      hciNodup
  have hlen_ci : (createIndices startIndices updates.shape).length =
      updates.shape.prod := ci_length _ _ hszu
  have hzipNodup :
      (((createIndices startIndices updates.shape).zip updates.data).map
        (fun pr => flatIndex inputs.shape pr.1)).Nodup := by
    rw [map_fst_zip_comp (fun idx => flatIndex inputs.shape idx) _ _
      (by omega)]
    exact hflatsNodup
  refine ⟨scatterList_shape _ _, ?_, ?_⟩
  · intro idx hlen hrect
    set o : List Nat := List.zipWith (fun a b => a - b) idx startIndices
      with hodef
    have holen : o.length = updates.shape.length := by
      rw [hodef, List.length_zipWith]
      omega
    have ho : List.Forall₂ (· < ·) o updates.shape := by
      refine forall₂_of_getD holen ?_
      intro k hk
      have hk2 : k < idx.length := by omega
      rw [hodef, zipWith_getD _ _ _ _ (by omega) (by omega)]
      have := hrect k hk2
      omega
    have hids : List.zipWith (· + ·) startIndices o = idx := by
      rw [hodef]
      exact zipWith_add_sub_cancel startIndices idx (by omega)
        (fun k hk => (hrect k (by omega)).1)
    have hkpos : flatIndex updates.shape o < updates.data.length := by
      rw [hudata]
      exact flatIndex_lt ho
    have hget1 : (createIndices startIndices updates.shape).get?
        (flatIndex updates.shape o) = some idx := by
      rw [ci_get ho startIndices hszu, hids]
    have hget2 : updates.data.get? (flatIndex updates.shape o) =
        some (updates.data.getD (flatIndex updates.shape o) 0) :=
      get?_eq_some_getD hkpos
    have hmem : (idx, updates.data.getD (flatIndex updates.shape o) 0) ∈
        (createIndices startIndices updates.shape).zip updates.data :=
      List.get?_mem (zip_get_some hget1 hget2)
    have hfl : flatIndex inputs.shape idx < inputs.data.length := by
      rw [hdata]
      refine flatIndex_lt (forall₂_of_getD hlen ?_)
      intro k hk
      have h1 := hrect k hk
      have h2 := hbound k (by omega)
      omega
    have hfinal := scatterList_getD_mem inputs.shape
      ((createIndices startIndices updates.shape).zip updates.data) inputs
      idx (updates.data.getD (flatIndex updates.shape o) 0) rfl hzipNodup
      hmem hfl
    simp only [sliceUpdate, tensorScatterUpdate, Tensor.get]
    rw [scatterList_shape]
    exact hfinal
  · intro idx hlen hin hnot
    have hno : ∀ pr ∈ (createIndices startIndices updates.shape).zip
        updates.data,
        flatIndex inputs.shape pr.1 ≠ flatIndex inputs.shape idx := by
      intro pr hpr hcontra
      have hpr1 : pr.1 ∈ createIndices startIndices updates.shape := by
        have hm := List.mem_map_of_mem Prod.fst hpr
        rw [List.map_fst_zip _ _ (by omega)] at hm
        exact hm
      obtain ⟨o, ho, heqpr⟩ := ci_mem hpr1 hszu
      rw [heqpr] at hcontra
      have hfor : List.Forall₂ (· < ·)
          (List.zipWith (· + ·) startIndices o) inputs.shape :=
        forall₂_sum_bound ho startIndices inputs.shape (by omega)
          (by omega) (fun k hk => hbound k (by omega))
      have hidxb : List.Forall₂ (· < ·) idx inputs.shape :=
        forall₂_of_getD hlen hin
      have heq := flatIndex_inj hfor hidxb hcontra
      apply hnot
      intro k hk
      have holen : o.length = updates.shape.length :=
        List.Forall₂.length_eq ho
      rw [← heq, zipWith_getD _ _ _ k (by omega) (by omega)]
      have := forall₂_getD ho k (by omega)
      omega
    simp only [sliceUpdate, tensorScatterUpdate, Tensor.get]
    rw [scatterList_shape]
    exact scatterList_getD_notin _ inputs (flatIndex inputs.shape idx) hno

/-- Closed instance of C10 on a 2 by 2 tensor updated by a 1 by 2 block at
start indices (1, 0): shape preserved, an inside entry reads from the
updates, an outside entry reads from the inputs. -/
theorem sliceUpdate_correct_witness :
    (sliceUpdate ⟨[2, 2], [0, 1, 2, 3]⟩ [1, 0] ⟨[1, 2], [10, 11]⟩).shape =
        [2, 2] ∧
      (sliceUpdate ⟨[2, 2], [0, 1, 2, 3]⟩ [1, 0] ⟨[1, 2], [10, 11]⟩).get
          [1, 0] =
        Tensor.get ⟨[1, 2], [10, 11]⟩
          (List.zipWith (fun a b => a - b) [1, 0] [1, 0]) ∧
      (sliceUpdate ⟨[2, 2], [0, 1, 2, 3]⟩ [1, 0] ⟨[1, 2], [10, 11]⟩).get
          [0, 1] =
        Tensor.get ⟨[2, 2], [0, 1, 2, 3]⟩ [0, 1] := by
  have h := sliceUpdate_correct ⟨[2, 2], [0, 1, 2, 3]⟩ [1, 0]
    ⟨[1, 2], [10, 11]⟩ (by decide) (by decide) (by decide) (by decide)
    (by decide)
  exact ⟨h.1, h.2.1 [1, 0] (by decide) (by decide),
    h.2.2 [0, 1] (by decide) (by decide) (by decide)⟩

end TfjsNlp
